import Mathlib

/-
Verification of the thinking-tag filtering proxy (deepseeked.py).

The development shallowly embeds the pure core of the source file:
the tag filter process_thinking_content, the emptiness test
is_empty_content, the non-streaming cleanup clean_response_content
(whose while loop is modelled with explicit fuel, since the loop does
not terminate on some inputs), and the per-chunk body of the streaming
generator.  Text is modelled as List Char; Python substring membership
(the in operator) is modelled by List.IsInfix, Python str.find based
slicing by an executable first-occurrence splitter, and Python
str.split(sep) indexing by executable before-first / after-last
functions with the same non-overlapping left-to-right semantics.
-/

abbrev L := List Char

/-- The opening thinking marker recognised by the filter. -/
def thinkTag : L := "<think>".toList

/-- The closing thinking marker recognised by the filter. -/
def endThinkTag : L := "</think>".toList

/-- The triple-backtick code-fence marker. -/
def fenceTag : L := "```".toList

/-- The optional language tag accepted right after an opening fence. -/
def jsonTag : L := "json".toList

/-- Splits a list at the first occurrence of the pattern: if
firstSplit pat s = some (a, b) then s = a ++ pat ++ b and the
occurrence at a.length is the leftmost one.  Models Python str.find
together with the slicing the source does around the found index. -/
def firstSplit (pat : L) : L → Option (L × L)
  | [] => if pat.isEmpty then some ([], []) else none
  | c :: t =>
    if pat.isPrefixOf (c :: t) then some ([], (c :: t).drop pat.length)
    else match firstSplit pat t with
      | some (a, b) => some (c :: a, b)
      | none => none

theorem firstSplit_eq_append {pat s a b : L} (h : firstSplit pat s = some (a, b)) :
    s = a ++ pat ++ b := by
  induction s generalizing a b with
  | nil =>
    by_cases hp : pat.isEmpty
    · simp [firstSplit, hp] at h
      obtain ⟨rfl, rfl⟩ := h
      simp [List.isEmpty_iff.mp hp]
    · simp [firstSplit, hp] at h
  | cons c t ih =>
    by_cases hp : pat.isPrefixOf (c :: t)
    · simp only [firstSplit, if_pos hp] at h
      obtain ⟨rfl, rfl⟩ := h
      obtain ⟨u, hu⟩ := List.isPrefixOf_iff_prefix.mp hp
      conv_lhs => rw [← hu]
      simp [← hu]
    · simp only [firstSplit, if_neg hp] at h
      cases hfs : firstSplit pat t with
      | none => rw [hfs] at h; exact absurd h (by simp)
      | some ab =>
        obtain ⟨a', b'⟩ := ab
        rw [hfs] at h
        simp only [Option.some.injEq, Prod.mk.injEq] at h
        obtain ⟨rfl, rfl⟩ := h
        simp [ih hfs]

theorem firstSplit_isSome_of_occurs {pat s : L} (h : pat <:+: s) :
    (firstSplit pat s).isSome := by
  induction s with
  | nil =>
    rw [List.infix_nil] at h
    subst h
    simp [firstSplit]
  | cons c t ih =>
    by_cases hp : pat.isPrefixOf (c :: t)
    · simp [firstSplit, hp]
    · have hnotpre : ¬ pat <+: c :: t := fun hc => hp (List.isPrefixOf_iff_prefix.mpr hc)
      have htail : pat <:+: t := by
        obtain ⟨u, v, huv⟩ := h
        cases u with
        | nil => exact absurd ⟨v, by simpa using huv⟩ hnotpre
        | cons x u' =>
          have : x :: (u' ++ pat ++ v) = c :: t := by simpa using huv
          exact ⟨u', v, by simpa using (List.cons_eq_cons.mp this).2⟩
      simp only [firstSplit, if_neg hp]
      cases hfs : firstSplit pat t with
      | none => rw [hfs] at ih; exact absurd (ih htail) (by simp)
      | some ab => simp

theorem infix_of_firstSplit {pat s a b : L} (h : firstSplit pat s = some (a, b)) :
    pat <:+: s := by
  rw [firstSplit_eq_append h]
  exact ⟨a, b, rfl⟩

/-- Text before the first occurrence of the pattern, the whole text if
the pattern does not occur.  Models the Python expression
s.split(pat)[0]. -/
def beforeFirst (pat s : L) : L :=
  match firstSplit pat s with
  | some (a, _) => a
  | none => s

theorem firstSplit_length_lt {pat s a b : L} (hne : ¬ pat.isEmpty)
    (h : firstSplit pat s = some (a, b)) : b.length < s.length := by
  have hs := firstSplit_eq_append h
  have : pat.length ≠ 0 := fun hz => hne (by simpa using List.eq_nil_of_length_eq_zero hz)
  rw [hs]
  simp only [List.length_append]
  omega

/-- Fuel-driven auxiliary for afterLast; the fuel only makes the
recursion structural, it never runs out when the pattern is non-empty
and the fuel starts at one more than the length of the text, because
each step strictly shortens the text. -/
def afterLastAux (pat : L) : Nat → L → L
  | 0, s => s
  | fuel + 1, s =>
    match firstSplit pat s with
    | none => s
    | some (_, b) => afterLastAux pat fuel b

/-- Text after the last occurrence of the pattern under Python's
non-overlapping left-to-right split semantics, the whole text if the
pattern does not occur.  Models the Python expression s.split(pat)[-1]. -/
def afterLast (pat : L) (s : L) : L :=
  if pat.isEmpty then s else afterLastAux pat (s.length + 1) s

/-- Python whitespace characters relevant to str.strip and the regex
class backslash-s, restricted to the ASCII range. -/
def pyIsSpace (c : Char) : Bool :=
  c = ' ' || c = '\t' || c = '\n' || c = '\r' || c = '\x0b' || c = '\x0c'

/-- Removes leading whitespace, the first half of Python str.strip. -/
def dropLeading (s : L) : L := s.dropWhile pyIsSpace

/-- Removes trailing whitespace, the second half of Python str.strip. -/
def dropTrailing (s : L) : L := (s.reverse.dropWhile pyIsSpace).reverse

/-- Models Python str.strip. -/
def pyStrip (s : L) : L := dropTrailing (dropLeading s)

/-- Scans for the first position where an opening triple-backtick fence
starts and another fence occurs later, the positions at which the
source's regex (triple-backtick, optional json tag, lazy body,
triple-backtick) can anchor a match; returns the text after the opening
fence.  re.search takes the leftmost such position. -/
def fenceSearch : L → Option L
  | [] => none
  | c :: t =>
    if fenceTag.isPrefixOf (c :: t) ∧ fenceTag <:+: (c :: t).drop 3 then
      some ((c :: t).drop 3)
    else fenceSearch t

theorem fenceSearch_has_fence {s r : L} (h : fenceSearch s = some r) : fenceTag <:+: s := by
  induction s with
  | nil => simp [fenceSearch] at h
  | cons c t ih =>
    by_cases hc : fenceTag.isPrefixOf (c :: t) ∧ fenceTag <:+: (c :: t).drop 3
    · exact (List.isPrefixOf_iff_prefix.mp hc.1).isInfix
    · simp only [fenceSearch, if_neg hc] at h
      exact List.infix_cons (ih h)

/-- The regex group(1).strip() of the source's fence unwrapping: skip an
optional json tag after the matched opening fence, take the text up to
the next fence, and strip it.  The regex's greedy leading and
backtracked trailing whitespace-star are subsumed by the final strip. -/
def fenceExtract (rraw : L) : L :=
  let r := if jsonTag.isPrefixOf rraw then rraw.drop 4 else rraw
  pyStrip (beforeFirst fenceTag r)

/-- Shallow embedding of process_thinking_content from deepseeked.py.
The Boolean state is thinking_started: false is the Normal state, true
is the InsideThinking state. -/
def process_thinking_content (message_content : L) (thinking_started : Bool) : L × Bool :=
  if message_content.isEmpty then ([], thinking_started)
  else
    let mc :=
      if fenceTag <:+: message_content then
        match fenceSearch message_content with
        | some rraw => fenceExtract rraw
        | none => message_content
      else message_content
    if thinkTag <:+: mc then (beforeFirst thinkTag mc, true)
    else if endThinkTag <:+: mc then (afterLast endThinkTag mc, false)
    else if thinking_started then ([], thinking_started)
    else (mc, thinking_started)

/-- Shallow embedding of is_empty_content from deepseeked.py. -/
def is_empty_content (message_content : L) : Bool :=
  message_content.isEmpty || (pyStrip message_content).isEmpty

/-- Splits a list at newline characters, the model of Python
str.split applied with separator newline: n separators yield n+1
pieces, empty pieces included. -/
def splitNl : L → List L
  | [] => [[]]
  | c :: t =>
    let rest := splitNl t
    if c = '\n' then [] :: rest
    else (c :: rest.headD []) :: rest.tail

/-- Joins pieces with newline separators, the model of the Python
expression backslash-n joined over a list of strings. -/
def joinNl : List L → L
  | [] => []
  | [l] => l
  | l :: m :: ms => l ++ '\n' :: joinNl (m :: ms)

/-- The tail of clean_response_content after its loop: drop empty
lines, rejoin with newlines, and strip. -/
def postProcess (s : L) : L :=
  pyStrip (joinNl ((splitNl s).filter (fun l => !l.isEmpty)))

/-- One iteration of the while loop of clean_response_content:
content[:start] ++ content[end:] with start the index of the first
opening tag and end the index just past the first closing tag.  The
fallthrough case is unreachable under the loop guard. -/
def cleanStep (s : L) : L :=
  match firstSplit thinkTag s, firstSplit endThinkTag s with
  | some (a, _), some (_, b) => a ++ b
  | _, _ => s

/-- The while loop of clean_response_content with explicit fuel; none
means the fuel was exhausted with the loop guard still true.  The
source loop has no fuel bound, so a result of none for every fuel
value exhibits non-termination of the source loop. -/
def cleanLoop : Nat → L → Option L
  | 0, s =>
    if thinkTag <:+: s ∧ endThinkTag <:+: s then none else some s
  | fuel + 1, s =>
    if thinkTag <:+: s ∧ endThinkTag <:+: s then cleanLoop fuel (cleanStep s)
    else some s

/-- Shallow embedding of clean_response_content from deepseeked.py,
with explicit fuel for its while loop. -/
def clean_response_content (fuel : Nat) (content : L) : Option L :=
  if content.isEmpty then some content
  else (cleanLoop fuel content).map postProcess

/-
Model of the streaming generator.  A parsed JSON value is modelled by
JVal; numbers are modelled as integers, which covers every record the
claims quantify over.  The result of json.loads on a chunk is part of
the input (an Option JVal oracle, none modelling a JSONDecodeError),
since the JSON parser is library code outside this repository.
-/

inductive JVal where
  | jnull : JVal
  | jbool : Bool → JVal
  | jnum : Int → JVal
  | jstr : L → JVal
  | jarr : List JVal → JVal
  | jobj : List (L × JVal) → JVal

/-- Key lookup in an object's field list, modelling Python dict
indexing on parsed JSON objects. -/
def lookupField (k : L) : List (L × JVal) → Option JVal
  | [] => none
  | (k', v) :: rest => if k' = k then some v else lookupField k rest

/-- Replaces the value of an existing key in place, modelling Python
dict assignment for a key that is present. -/
def setField (k : L) (nv : JVal) : List (L × JVal) → List (L × JVal)
  | [] => []
  | (k', v) :: rest =>
    if k' = k then (k', nv) :: rest else (k', v) :: setField k nv rest

/-- The check and extraction the generator performs: data must be an
object with a message field holding an object with a content field
holding a string.  This is the domain on which the source's checks
succeed and the payload is text; the claims quantify only over records
carrying a textual message.content payload. -/
def getMsgContent : JVal → Option L
  | JVal.jobj fs =>
    match lookupField ("message".toList) fs with
    | some (JVal.jobj gs) =>
      match lookupField ("content".toList) gs with
      | some (JVal.jstr c) => some c
      | _ => none
    | _ => none
  | _ => none

/-- Models the mutation data[message][content] = cleaned on a record
in the domain of getMsgContent. -/
def setMsgContent (v : JVal) (c : L) : JVal :=
  match v with
  | JVal.jobj fs =>
    match lookupField ("message".toList) fs with
    | some (JVal.jobj gs) =>
      JVal.jobj (setField ("message".toList)
        (JVal.jobj (setField ("content".toList) (JVal.jstr c) gs)) fs)
    | _ => v
  | _ => v

/-- Escapes one character for JSON string serialization; the subset of
json.dumps escaping needed for the payloads at hand. -/
def escapeChar (c : Char) : L :=
  if c = '"' then '\\' :: ['"']
  else if c = '\\' then '\\' :: ['\\']
  else if c = '\n' then '\\' :: ['n']
  else if c = '\t' then '\\' :: ['t']
  else if c = '\r' then '\\' :: ['r']
  else [c]

/-- Serializes a JSON string literal with quotes and escaping. -/
def dumpsStr (s : L) : L :=
  '"' :: List.foldr (fun c acc => escapeChar c ++ acc) ['"'] s

mutual

/-- Models json.dumps with Python's default separators. -/
def dumps : JVal → L
  | JVal.jnull => "null".toList
  | JVal.jbool b => if b then "true".toList else "false".toList
  | JVal.jnum n => (toString n).toList
  | JVal.jstr s => dumpsStr s
  | JVal.jarr xs => '[' :: (dumpsElems xs ++ [']'])
  | JVal.jobj fs => '{' :: (dumpsFields fs ++ ['}'])

/-- Serializes array elements separated by comma-space. -/
def dumpsElems : List JVal → L
  | [] => []
  | [x] => dumps x
  | x :: y :: xs => dumps x ++ ',' :: ' ' :: dumpsElems (y :: xs)

/-- Serializes object fields separated by comma-space with
colon-space between key and value. -/
def dumpsFields : List (L × JVal) → L
  | [] => []
  | [(k, v)] => dumpsStr k ++ ':' :: ' ' :: dumps v
  | (k, v) :: f :: fs => dumpsStr k ++ ':' :: ' ' :: dumps v ++ ',' :: ' ' :: dumpsFields (f :: fs)

end

/-- Shallow embedding of the body of the generator loop in deepseeked.py
for one upstream chunk: the raw bytes of the line (without its newline,
as produced by iter_lines) together with the oracle result of
json.loads on it.  Returns the list of emitted byte lines (empty or a
singleton) and the updated thinking state. -/
def generate_step (thinking_started : Bool) (raw : L) (parsed : Option JVal) :
    List L × Bool :=
  if raw.isEmpty then ([], thinking_started)
  else
    match parsed with
    | none => ([raw ++ ['\n']], thinking_started)
    | some data =>
      match getMsgContent data with
      | some content =>
        let res := process_thinking_content content thinking_started
        if is_empty_content res.1 then ([], res.2)
        else ([dumps (setMsgContent data res.1) ++ ['\n']], res.2)
      | none => ([raw ++ ['\n']], thinking_started)

/-- Runs the streaming tag filter over a sequence of text fragments
with the threaded thinking state, concatenating all retained text. -/
def runFragments : Bool → List L → L × Bool
  | st, [] => ([], st)
  | st, f :: fs =>
    let res := process_thinking_content f st
    let rest := runFragments res.2 fs
    (res.1 ++ rest.1, rest.2)

theorem not_infix_of_forall_space {s pat : L} (hws : ∀ c ∈ s, pyIsSpace c = true)
    {c : Char} (hc : c ∈ pat) (hcs : pyIsSpace c = false) : ¬ pat <:+: s := by
  intro h
  have := hws c (h.subset hc)
  rw [this] at hcs
  exact absurd hcs (by simp)

/-- C1: feeding the fragments a-then-partial-marker and
rest-of-marker-then-b with initial state Normal does not yield the
concatenated retained output ab: the partial opening marker split
across the fragment boundary is not recognised. -/
theorem C1_counterexample :
    (runFragments false ["a<thi".toList, "nk>secret</think>b".toList]).1 ≠ "ab".toList := by
  decide

/-- C1 (amended): the streaming filter threads only the thinking state
across fragments and recognises no marker split across a fragment
boundary, so feeding the fragments a-then-partial-marker and
rest-of-marker-then-b with initial state Normal retains the first
fragment verbatim and, after the closing marker in the second
fragment, the trailing b: the concatenation of retained text is
a-then-open-angle-t-h-i-then-b, not ab, and the concatenation
invariant of the claim fails for marker-splitting sequences. -/
theorem C1_boundary_fragments :
    runFragments false ["a<thi".toList, "nk>secret</think>b".toList] =
      ("a<thib".toList, false) := by decide

theorem cleanLoop_stuck : ∀ fuel, cleanLoop fuel ("</think><think>".toList) = none := by
  intro fuel
  induction fuel with
  | zero => decide
  | succ n ih =>
    have hstep : cleanStep ("</think><think>".toList) = "</think><think>".toList := by decide
    have hguard : thinkTag <:+: "</think><think>".toList ∧
        endThinkTag <:+: "</think><think>".toList := by decide
    rw [cleanLoop, if_pos hguard, hstep]
    exact ih

/-- C2: on the input closing-marker-then-opening-marker the while loop
of clean_response_content rebuilds exactly the same string in every
iteration while its guard stays true, so the function never returns:
for every fuel bound the loop is still running.  The claim that
clean_response_content terminates on every input is right about the
intent and wrong about the code. -/
theorem C2_clean_response_nontermination :
    ∀ fuel, clean_response_content fuel ("</think><think>".toList) = none := by
  intro fuel
  rw [clean_response_content]
  rw [cleanLoop_stuck fuel]
  rfl

/-- C3 (amended): for empty or whitespace-only input the tag filter
leaves the state unchanged and retains the empty string when the state
is InsideThinking, but in state Normal a non-empty whitespace-only
input is retained verbatim rather than as the empty string; the
function is total. -/
theorem C3_tag_filter_whitespace (s : L) (st : Bool)
    (hws : ∀ c ∈ s, pyIsSpace c = true) :
    process_thinking_content s st = (if st then [] else s, st) := by
  cases hs : s.isEmpty with
  | true =>
    rw [List.isEmpty_iff] at hs
    subst hs
    cases st <;> decide
  | false =>
    have h1 : ¬ fenceTag <:+: s :=
      not_infix_of_forall_space hws (c := fenceTag.headD ' ') (by decide) (by decide)
    have h2 : ¬ thinkTag <:+: s :=
      not_infix_of_forall_space hws (c := thinkTag.headD ' ') (by decide) (by decide)
    have h3 : ¬ endThinkTag <:+: s :=
      not_infix_of_forall_space hws (c := endThinkTag.headD ' ') (by decide) (by decide)
    rw [process_thinking_content]
    simp only [hs, Bool.false_eq_true, if_false, h1, h2, h3]
    cases st <;> simp

/-- C3: the claim that whitespace-only input always yields the empty
string as retained output fails in state Normal, where the
single-space input is retained as the single space. -/
theorem C3_counterexample :
    (process_thinking_content (" ".toList) false).1 ≠ [] := by decide

theorem C3_witness :
    process_thinking_content (" ".toList) true = (if true then [] else " ".toList, true) :=
  C3_tag_filter_whitespace (" ".toList) true (by decide)

/-- C4 (amended): for input without a triple-backtick fence, if the
text contains the opening marker then the filter returns the text
before the first opening marker and enters InsideThinking, even when a
complete closing marker follows in the same fragment; in the presence
of a fence the unwrapping runs first and can remove the marker. -/
theorem C4_opening_priority (s : L) (st : Bool) (hnf : ¬ fenceTag <:+: s)
    (ht : thinkTag <:+: s) :
    process_thinking_content s st = (beforeFirst thinkTag s, true) := by
  have hne : s.isEmpty = false := by
    cases s with
    | nil => rw [List.infix_nil] at ht; exact absurd ht (by decide)
    | cons c t => rfl
  rw [process_thinking_content]
  simp only [hne, Bool.false_eq_true, if_false, hnf, ht, if_true]

/-- C4: the claim quantifies over every input containing the opening
marker, but a fenced input containing the opening marker is first
unwrapped to its fence body, which here contains no marker, so the
filter neither returns the text before the first opening marker nor
enters InsideThinking. -/
theorem C4_counterexample :
    process_thinking_content ("x<think>y``` z ```".toList) false ≠
      (beforeFirst thinkTag ("x<think>y``` z ```".toList), true) := by decide

theorem C4_witness :
    process_thinking_content ("x<think>y</think>z".toList) false =
      (beforeFirst thinkTag ("x<think>y</think>z".toList), true) :=
  C4_opening_priority ("x<think>y</think>z".toList) false (by decide) (by decide)

/-- C5 (amended): for input without a triple-backtick fence and
without an opening marker, if the text contains a closing marker then
the filter returns the text after the last closing marker and resets
the state to Normal, for every starting state; in the presence of a
fence the unwrapping runs first and can remove the marker. -/
theorem C5_closing_marker (s : L) (st : Bool) (hnf : ¬ fenceTag <:+: s)
    (hnt : ¬ thinkTag <:+: s) (hc : endThinkTag <:+: s) :
    process_thinking_content s st = (afterLast endThinkTag s, false) := by
  have hne : s.isEmpty = false := by
    cases s with
    | nil => rw [List.infix_nil] at hc; exact absurd hc (by decide)
    | cons c t => rfl
  rw [process_thinking_content]
  simp only [hne, Bool.false_eq_true, if_false, hnf, hnt, hc, if_true]

/-- C5: the claim quantifies over every input containing a closing but
no opening marker, but a fenced input is first unwrapped to its fence
body, so the filter does not return the text after the last closing
marker of the original input. -/
theorem C5_counterexample :
    process_thinking_content ("a</think>b``` c ```".toList) false ≠
      (afterLast endThinkTag ("a</think>b``` c ```".toList), false) := by decide

theorem C5_witness :
    process_thinking_content ("a</think>b".toList) true =
      (afterLast endThinkTag ("a</think>b".toList), false) :=
  C5_closing_marker ("a</think>b".toList) true (by decide) (by decide) (by decide)

/-- C7 (amended): when the state is Normal and the input contains a
complete fenced block, the filter retains exactly the trimmed content
between the first opening fence and its matching closing fence with
state still Normal, provided that the unwrapped content contains no
thinking marker; a marker inside the fence body is processed after
unwrapping and changes output and state. -/
theorem C7_fence_unwrap (s rraw : L) (hf : fenceSearch s = some rraw)
    (hnt : ¬ thinkTag <:+: fenceExtract rraw)
    (hnc : ¬ endThinkTag <:+: fenceExtract rraw) :
    process_thinking_content s false = (fenceExtract rraw, false) := by
  have hne : s.isEmpty = false := by
    cases s with
    | nil => rw [fenceSearch] at hf; exact absurd hf (by simp)
    | cons c t => rfl
  have hfe : fenceTag <:+: s := fenceSearch_has_fence hf
  rw [process_thinking_content]
  simp only [hne, Bool.false_eq_true, if_false, hfe, if_true, hf, hnt, hnc]

/-- C7: the claim that the filter retains the trimmed between-fence
content whenever the state is Normal fails when the fence body itself
contains an opening marker: the body is unwrapped first and then the
marker branch truncates it and flips the state. -/
theorem C7_counterexample :
    process_thinking_content ("```a<think>b```".toList) false ≠
      ("a<think>b".toList, false) := by decide

theorem C7_witness :
    process_thinking_content ("```json\n\x7b\"x\":1\x7d\n```".toList) false =
      ("\x7b\"x\":1\x7d".toList, false) :=
  (C7_fence_unwrap ("```json\n\x7b\"x\":1\x7d\n```".toList)
    ("json\n\x7b\"x\":1\x7d\n```".toList) (by decide) (by decide) (by decide)).trans
    (by decide)

/-- C8: for a streaming record carrying a textual message.content
payload, if the text retained by the tag filter is empty or
whitespace-only after trimming then the generator emits nothing at all
for that record, while still updating the thinking state. -/
theorem C8_suppression (st : Bool) (raw : L) (data : JVal) (content : L)
    (hraw : raw.isEmpty = false) (hget : getMsgContent data = some content)
    (hempty : is_empty_content (process_thinking_content content st).1 = true) :
    generate_step st raw (some data) = ([], (process_thinking_content content st).2) := by
  rw [generate_step]
  simp only [hraw, Bool.false_eq_true, if_false, hget, hempty, if_true]

def recordW : JVal :=
  JVal.jobj [("message".toList,
    JVal.jobj [("content".toList, JVal.jstr ("secret".toList))])]

theorem C8_witness :
    generate_step true ("x".toList) (some recordW) =
      ([], (process_thinking_content ("secret".toList) true).2) :=
  C8_suppression true ("x".toList) recordW ("secret".toList) (by decide) (by rfl) (by decide)

/-- C9: the claim that whitespace-only upstream lines are skipped
fails: the generator only skips empty chunks, and a non-empty
whitespace-only line falls through to JSON parsing, fails to parse,
and is forwarded raw with a newline. -/
theorem C9_counterexample :
    (generate_step false (" ".toList) none).1 ≠ [] := by decide

/-- C9 (amended): an empty upstream line is skipped with nothing
emitted, but a non-empty whitespace-only line, which fails JSON
parsing, is forwarded raw with a trailing newline; in both cases the
thinking state is unchanged. -/
theorem C9_blank_lines (st : Bool) (raw : L) (parsed : Option JVal)
    (hws : ∀ c ∈ raw, pyIsSpace c = true) (hp : parsed = none) :
    generate_step st raw parsed = (if raw.isEmpty then [] else [raw ++ ['\n']], st) := by
  subst hp
  cases hr : raw.isEmpty with
  | true => rw [generate_step]; simp [hr]
  | false => rw [generate_step]; simp [hr]

theorem C9_witness :
    generate_step false (" ".toList) none =
      (if (" ".toList).isEmpty then [] else [" ".toList ++ ['\n']], false) :=
  C9_blank_lines false (" ".toList) none (by decide) rfl

/-- C10: a non-empty upstream line that fails to parse as JSON is
forwarded unchanged followed by a single newline, with the thinking
state unchanged, and the stream does not fail. -/
theorem C10_malformed_forwarded (st : Bool) (raw : L) (h : raw.isEmpty = false) :
    generate_step st raw none = ([raw ++ ['\n']], st) := by
  rw [generate_step]
  simp [h]

theorem C10_witness :
    generate_step false ("not-json".toList) none =
      (["not-json".toList ++ ['\n']], false) :=
  C10_malformed_forwarded false ("not-json".toList) (by decide)

/-
Infrastructure for the idempotence claim about clean_response_content.
The plan: a terminating run of the while loop ends with the guard
false, i.e. one of the two tags is absent; the trailing
join-nonempty-lines-and-strip step can only erase whole newline
characters at the ends and never creates a new occurrence of a
newline-free pattern; hence a second run performs zero loop iterations
and reduces to the join-and-strip step, which is idempotent.
-/

theorem infix_append_cases {pat a b : L} (h : pat <:+: a ++ b) :
    pat <:+: a ∨ pat <:+: b ∨ ∃ p₁ p₂, pat = p₁ ++ p₂ ∧ p₁ <:+ a ∧ p₂ <+: b := by
  obtain ⟨u, v, huv⟩ := h
  have huv' : (u ++ pat) ++ v = a ++ b := by simpa [List.append_assoc] using huv
  rcases List.append_eq_append_iff.mp huv' with ⟨w, hw1, _⟩ | ⟨w, hw1, hw2⟩
  · exact Or.inl ⟨u, w, by rw [hw1, List.append_assoc]⟩
  · rcases List.append_eq_append_iff.mp hw1 with ⟨w2, hv1, hv2⟩ | ⟨w2, hv1, hv2⟩
    · exact Or.inr (Or.inr ⟨w2, w, hv2, ⟨u, hv1.symm⟩, ⟨v, hw2.symm⟩⟩)
    · refine Or.inr (Or.inl ⟨w2, v, ?_⟩)
      rw [hw2, hv2, List.append_assoc]

theorem joinNl_head_not_nl {m : L} {ms : List L} (hm : m ≠ []) (hnl : '\n' ∉ m) :
    ¬ ['\n'] <+: joinNl (m :: ms) := by
  intro h
  cases m with
  | nil => exact hm rfl
  | cons c t =>
    have hc : c = '\n' := by
      cases ms with
      | nil =>
        rw [joinNl] at h
        exact (List.cons_prefix_cons.mp h).1.symm
      | cons m' ms' =>
        rw [joinNl] at h
        rw [List.cons_append] at h
        exact (List.cons_prefix_cons.mp h).1.symm
    exact hnl (hc ▸ List.mem_cons_self c t)

theorem infix_joinNl {pat : L} (hne : pat ≠ []) (hnl : '\n' ∉ pat) :
    ∀ ls : List L, (∀ l ∈ ls, l ≠ [] ∧ '\n' ∉ l) → pat <:+: joinNl ls →
      ∃ l ∈ ls, pat <:+: l := by
  intro ls
  induction ls with
  | nil =>
    intro _ h
    rw [joinNl, List.infix_nil] at h
    exact absurd h hne
  | cons l ls ih =>
    intro hls h
    cases ls with
    | nil => exact ⟨l, List.mem_cons_self l [], by rw [joinNl] at h; exact h⟩
    | cons m ms =>
      rw [joinNl] at h
      rcases infix_append_cases h with h1 | h2 | ⟨p₁, p₂, hp, hs, hpre⟩
      · exact ⟨l, List.mem_cons_self _ _, h1⟩
      · have h2' : pat <:+: ['\n'] ++ joinNl (m :: ms) := by simpa using h2
        rcases infix_append_cases h2' with g1 | g2 | ⟨q₁, q₂, hq, hqs, hqp⟩
        · exfalso
          apply hnl
          cases pat with
          | nil => exact absurd rfl hne
          | cons c p =>
            have hcm : c ∈ ['\n'] := g1.subset (List.mem_cons_self c p)
            have hc : c = '\n' := by simpa using hcm
            exact hc ▸ List.mem_cons_self c p
        · obtain ⟨l', hl', hp'⟩ :=
            ih (fun x hx => hls x (List.mem_cons_of_mem l hx)) g2
          exact ⟨l', List.mem_cons_of_mem l hl', hp'⟩
        · cases q₁ with
          | nil =>
            obtain ⟨l', hl', hp'⟩ :=
              ih (fun x hx => hls x (List.mem_cons_of_mem l hx))
                (by rw [hq]; exact hqp.isInfix)
            exact ⟨l', List.mem_cons_of_mem l hl', hp'⟩
          | cons c q =>
            exfalso
            apply hnl
            have hc : c = '\n' := by
              have hsub := hqs.subset (List.mem_cons_self c q)
              simpa using hsub
            rw [hq]
            rw [hc] at *
            exact List.mem_append.mpr (Or.inl (List.mem_cons_self _ _))
      · cases p₂ with
        | nil =>
          refine ⟨l, List.mem_cons_self _ _, ?_⟩
          rw [hp, List.append_nil]
          exact hs.isInfix
        | cons c q =>
          exfalso
          apply hnl
          have hc : c = '\n' := (List.cons_prefix_cons.mp hpre).1
          rw [hp, hc]
          exact List.mem_append.mpr (Or.inr (List.mem_cons_self _ _))

theorem splitNl_ne_nil (s : L) : splitNl s ≠ [] := by
  cases s with
  | nil => simp [splitNl]
  | cons c t =>
    rw [splitNl]
    by_cases hc : c = '\n' <;> simp [hc]

theorem splitNl_headD_starts : ∀ s : L, (splitNl s).headD [] <+: s := by
  intro s
  induction s with
  | nil => simp [splitNl]
  | cons c t ih =>
    rw [splitNl]
    by_cases hc : c = '\n'
    · simp [hc]
    · simp only [hc, if_false]
      rw [List.headD_cons]
      exact List.cons_prefix_cons.mpr ⟨rfl, ih⟩

theorem mem_splitNl_occurs : ∀ {s l : L}, l ∈ splitNl s → l <:+: s := by
  intro s
  induction s with
  | nil =>
    intro l h
    simp [splitNl] at h
    simp [h]
  | cons c t ih =>
    intro l h
    rw [splitNl] at h
    by_cases hc : c = '\n'
    · simp only [hc, if_true] at h
      rcases List.mem_cons.mp h with rfl | h'
      · simp
      · exact List.infix_cons (ih h')
    · simp only [hc, if_false] at h
      rcases List.mem_cons.mp h with rfl | h'
      · exact (List.cons_prefix_cons.mpr ⟨rfl, splitNl_headD_starts t⟩).isInfix
      · exact List.infix_cons (ih (List.mem_of_mem_tail h'))

theorem mem_splitNl_not_nl : ∀ {s l : L}, l ∈ splitNl s → '\n' ∉ l := by
  intro s
  induction s with
  | nil =>
    intro l h
    simp [splitNl] at h
    subst h
    simp
  | cons c t ih =>
    intro l h
    rw [splitNl] at h
    by_cases hc : c = '\n'
    · simp only [hc, if_true] at h
      rcases List.mem_cons.mp h with rfl | h'
      · simp
      · exact ih h'
    · simp only [hc, if_false] at h
      rcases List.mem_cons.mp h with rfl | h'
      · intro hmem
        rcases List.mem_cons.mp hmem with h0 | h0
        · exact hc h0.symm
        · cases hh : splitNl t with
          | nil => exact splitNl_ne_nil t hh
          | cons x r =>
            rw [hh, List.headD_cons] at h0
            have hx : x ∈ splitNl t := by rw [hh]; exact List.mem_cons_self x r
            exact ih hx h0
      · exact ih (List.mem_of_mem_tail h')

theorem splitNl_single {s : L} (h : '\n' ∉ s) : splitNl s = [s] := by
  induction s with
  | nil => rfl
  | cons c t ih =>
    have hc : ¬ c = '\n' := fun hc => h (hc ▸ List.mem_cons_self c t)
    have ht : '\n' ∉ t := fun hm => h (List.mem_cons_of_mem c hm)
    rw [splitNl]
    simp only [hc, if_false, ih ht]
    rfl

theorem splitNl_append_nl {l q : L} (h : '\n' ∉ l) :
    splitNl (l ++ '\n' :: q) = l :: splitNl q := by
  induction l with
  | nil => simp [splitNl]
  | cons c t ih =>
    have hc : ¬ c = '\n' := fun hc => h (hc ▸ List.mem_cons_self c t)
    have ht : '\n' ∉ t := fun hm => h (List.mem_cons_of_mem c hm)
    rw [List.cons_append, splitNl]
    simp only [hc, if_false, ih ht]
    rfl

theorem joinNl_splitNl : ∀ s : L, joinNl (splitNl s) = s := by
  intro s
  induction s with
  | nil => rfl
  | cons c t ih =>
    rw [splitNl]
    cases hh : splitNl t with
    | nil => exact absurd hh (splitNl_ne_nil t)
    | cons x r =>
      by_cases hc : c = '\n'
      · simp only [hc, if_true]
        rw [joinNl]
        rw [← hh, ih]
        rfl
      · simp only [hc, if_false, List.headD_cons, List.tail_cons]
        cases r with
        | nil =>
          rw [joinNl]
          have : joinNl (splitNl t) = t := ih
          rw [hh, joinNl] at this
          rw [this]
        | cons y rs =>
          rw [joinNl]
          have : joinNl (splitNl t) = t := ih
          rw [hh, joinNl] at this
          rw [List.cons_append, this]

theorem splitNl_joinNl : ∀ {ls : List L}, ls ≠ [] → (∀ l ∈ ls, '\n' ∉ l) →
    splitNl (joinNl ls) = ls := by
  intro ls
  induction ls with
  | nil => intro h _; exact absurd rfl h
  | cons l ls ih =>
    intro _ hnl
    cases ls with
    | nil => rw [joinNl]; exact splitNl_single (hnl l (List.mem_cons_self l []))
    | cons m ms =>
      rw [joinNl, splitNl_append_nl (hnl l (List.mem_cons_self _ _))]
      rw [ih (by simp) (fun x hx => hnl x (List.mem_cons_of_mem l hx))]

theorem dropLeading_suffix (s : L) : dropLeading s <:+ s :=
  ⟨s.takeWhile pyIsSpace, List.takeWhile_append_dropWhile pyIsSpace s⟩

theorem dropTrailing_prefix_self (s : L) : dropTrailing s <+: s := by
  have h1 : s.reverse.dropWhile pyIsSpace <:+ s.reverse :=
    ⟨s.reverse.takeWhile pyIsSpace, List.takeWhile_append_dropWhile pyIsSpace s.reverse⟩
  have h2 := List.reverse_prefix.mpr h1
  rw [List.reverse_reverse] at h2
  exact h2

theorem pyStrip_within (s : L) : pyStrip s <:+: s :=
  (dropTrailing_prefix_self (dropLeading s)).isInfix.trans (dropLeading_suffix s).isInfix

theorem dropWhile_idem (p : Char → Bool) (l : L) :
    List.dropWhile p (List.dropWhile p l) = List.dropWhile p l := by
  induction l with
  | nil => rfl
  | cons c t ih =>
    by_cases hc : p c = true
    · simp [List.dropWhile_cons, hc, ih]
    · simp [List.dropWhile_cons, hc]

theorem dropTrailing_idem (s : L) : dropTrailing (dropTrailing s) = dropTrailing s := by
  rw [dropTrailing, dropTrailing, List.reverse_reverse, dropWhile_idem]

theorem head?_dropWhile (p : Char → Bool) (l : L) {c : Char}
    (h : (List.dropWhile p l).head? = some c) : p c = false := by
  induction l with
  | nil => simp [List.dropWhile] at h
  | cons x t ih =>
    by_cases hx : p x = true
    · rw [List.dropWhile_cons, if_pos hx] at h
      exact ih h
    · rw [List.dropWhile_cons, if_neg hx] at h
      rw [List.head?_cons, Option.some.injEq] at h
      subst h
      simpa using hx

theorem dropWhile_eq_self_of_head (p : Char → Bool) (l : L)
    (h : ∀ c, l.head? = some c → p c = false) : List.dropWhile p l = l := by
  cases l with
  | nil => rfl
  | cons c t =>
    rw [List.dropWhile_cons]
    simp [h c rfl]

theorem dropLeading_dropTrailing_dropLeading (s : L) :
    dropLeading (dropTrailing (dropLeading s)) = dropTrailing (dropLeading s) := by
  apply dropWhile_eq_self_of_head
  intro c hc
  obtain ⟨w, hw⟩ : ∃ w, dropTrailing (dropLeading s) = c :: w := by
    cases hdt : dropTrailing (dropLeading s) with
    | nil => rw [hdt] at hc; simp at hc
    | cons x w =>
      rw [hdt, List.head?_cons, Option.some.injEq] at hc
      exact ⟨w, by rw [hc]⟩
  obtain ⟨v, hv⟩ := dropTrailing_prefix_self (dropLeading s)
  rw [hw] at hv
  have hhead : (dropLeading s).head? = some c := by
    rw [← hv]
    rfl
  exact head?_dropWhile pyIsSpace s hhead

theorem pyStrip_idem (s : L) : pyStrip (pyStrip s) = pyStrip s := by
  rw [pyStrip, pyStrip, dropLeading_dropTrailing_dropLeading, dropTrailing_idem]

theorem pyStrip_head_not_space (s : L) {c : Char} (h : (pyStrip s).head? = some c) :
    pyIsSpace c = false := by
  obtain ⟨w, hw⟩ : ∃ w, pyStrip s = c :: w := by
    cases hps : pyStrip s with
    | nil => rw [hps] at h; simp at h
    | cons x w =>
      rw [hps, List.head?_cons, Option.some.injEq] at h
      exact ⟨w, by rw [h]⟩
  obtain ⟨v, hv⟩ := dropTrailing_prefix_self (dropLeading s)
  rw [pyStrip] at hw
  rw [hw] at hv
  have hhead : (dropLeading s).head? = some c := by
    rw [← hv]
    rfl
  exact head?_dropWhile pyIsSpace s hhead

theorem pyStrip_getLast_not_space (s : L) {c : Char}
    (h : (pyStrip s).getLast? = some c) : pyIsSpace c = false := by
  have hrev : (pyStrip s).reverse = (dropLeading s).reverse.dropWhile pyIsSpace := by
    rw [pyStrip, dropTrailing, List.reverse_reverse]
  rw [List.getLast?_eq_head?_reverse, hrev] at h
  exact head?_dropWhile pyIsSpace (dropLeading s).reverse h

theorem no_double_nl_joinNl : ∀ {ls : List L}, (∀ l ∈ ls, l ≠ [] ∧ '\n' ∉ l) →
    ¬ ('\n' :: ['\n'] <:+: joinNl ls) := by
  intro ls
  induction ls with
  | nil =>
    intro _ h
    rw [joinNl, List.infix_nil] at h
    simp at h
  | cons l ls ih =>
    intro hls h
    cases ls with
    | nil =>
      rw [joinNl] at h
      exact (hls l (List.mem_cons_self _ _)).2 (h.subset (List.mem_cons_self _ _))
    | cons m ms =>
      have hm := hls m (List.mem_cons_of_mem l (List.mem_cons_self _ _))
      rw [joinNl] at h
      rcases infix_append_cases h with h1 | h2 | ⟨p₁, p₂, hp, hs, hpre⟩
      · exact (hls l (List.mem_cons_self _ _)).2 (h1.subset (List.mem_cons_self _ _))
      · have h2' : '\n' :: ['\n'] <:+: ['\n'] ++ joinNl (m :: ms) := by simpa using h2
        rcases infix_append_cases h2' with g1 | g2 | ⟨q₁, q₂, hq, hqs, hqp⟩
        · have := g1.length_le
          simp at this
        · exact ih (fun x hx => hls x (List.mem_cons_of_mem l hx)) g2
        · cases q₁ with
          | nil =>
            rw [List.nil_append] at hq
            rw [← hq] at hqp
            have : ['\n'] <+: joinNl (m :: ms) := by
              obtain ⟨w, hw⟩ := hqp
              exact ⟨'\n' :: w, by rw [← hw]; rfl⟩
            exact joinNl_head_not_nl hm.1 hm.2 this
          | cons x q =>
            have hx : x = '\n' := by
              have hsub := hqs.subset (List.mem_cons_self x q)
              simpa using hsub
            have hq1 : q = [] := by
              have hlen := hqs.length_le
              simp only [List.length_cons, List.length_nil] at hlen
              exact List.eq_nil_of_length_eq_zero (by omega)
            subst hq1
            rw [hx] at hq
            have hq2 : q₂ = ['\n'] := by
              have := hq
              simp at this
              exact this.symm
            rw [hq2] at hqp
            exact joinNl_head_not_nl hm.1 hm.2 hqp
      · cases p₁ with
        | nil =>
          rw [List.nil_append] at hp
          rw [← hp] at hpre
          have := List.cons_prefix_cons.mp hpre
          exact joinNl_head_not_nl hm.1 hm.2 this.2
        | cons x q =>
          have hx : x = '\n' := by
            have := hp
            rw [List.cons_append] at this
            exact (List.cons_eq_cons.mp this).1.symm
          have hmem : x ∈ l := hs.subset (List.mem_cons_self x q)
          rw [hx] at hmem
          exact (hls l (List.mem_cons_self _ _)).2 hmem

theorem getLast?_cons_of_ne_nil {x : Char} {t : L} (h : t ≠ []) :
    (x :: t).getLast? = t.getLast? := by
  cases t with
  | nil => exact absurd rfl h
  | cons y t' => exact List.getLast?_cons_cons

theorem splitNl_all_ne_nil : ∀ n : Nat, ∀ w : L, w.length ≤ n → w ≠ [] →
    w.head? ≠ some '\n' → w.getLast? ≠ some '\n' → ¬ ('\n' :: ['\n'] <:+: w) →
    ∀ l ∈ splitNl w, l ≠ [] := by
  intro n
  induction n with
  | zero =>
    intro w hw hne
    rw [Nat.le_zero, List.length_eq_zero] at hw
    exact absurd hw hne
  | succ n ih =>
    intro w hw hne hh hl hd l hm
    match w, hne with
    | [c], _ =>
      have hc : ¬ c = '\n' := fun h => hh (by rw [h]; rfl)
      rw [splitNl] at hm
      simp only [hc, if_false] at hm
      rcases List.mem_cons.mp hm with rfl | h'
      · simp [splitNl]
      · simp [splitNl] at h'
    | c :: d :: t, _ =>
      have hc : ¬ c = '\n' := fun h => hh (by rw [h]; rfl)
      by_cases hd2 : d = '\n'
      · subst hd2
        have ht : t ≠ [] := by
          intro h0
          subst h0
          exact hl (by rfl)
        have hth : t.head? ≠ some '\n' := by
          intro h0
          cases t with
          | nil => simp at h0
          | cons e t' =>
            rw [List.head?_cons, Option.some.injEq] at h0
            subst h0
            exact hd ⟨[c], t', rfl⟩
        have htl : t.getLast? ≠ some '\n' := by
          intro h0
          apply hl
          rw [List.getLast?_cons_cons, getLast?_cons_of_ne_nil ht]
          exact h0
        have htd : ¬ ('\n' :: ['\n'] <:+: t) := by
          intro h0
          exact hd (h0.trans ⟨[c, '\n'], [], by simp⟩)
        rw [splitNl] at hm
        simp only [hc, if_false] at hm
        rw [splitNl] at hm
        simp only [if_true] at hm
        rw [List.headD_cons, List.tail_cons] at hm
        rcases List.mem_cons.mp hm with rfl | h'
        · simp
        · exact ih t (by simp at hw ⊢; omega) ht hth htl htd l h'
      · have hdt : (d :: t) ≠ [] := by simp
        have hdh : (d :: t).head? ≠ some '\n' := by
          rw [List.head?_cons]
          intro h0
          exact hd2 (Option.some.injEq _ _ ▸ h0)
        have hdl : (d :: t).getLast? ≠ some '\n' := by
          rw [← List.getLast?_cons_cons (a := c)]
          exact hl
        have hdd : ¬ ('\n' :: ['\n'] <:+: d :: t) := by
          intro h0
          exact hd (h0.trans ⟨[c], [], by simp⟩)
        have hall := ih (d :: t) (by simp at hw ⊢; omega) hdt hdh hdl hdd
        rw [splitNl] at hm
        simp only [hc, if_false] at hm
        rw [splitNl] at hm
        simp only [hd2, if_false] at hm
        rw [List.headD_cons, List.tail_cons] at hm
        rcases List.mem_cons.mp hm with rfl | h'
        · simp
        · apply hall
          rw [splitNl]
          simp only [hd2, if_false]
          exact List.mem_cons_of_mem _ h'

theorem postProcess_pieces_ne_nil (s : L) :
    postProcess s = [] ∨ ∀ l ∈ splitNl (postProcess s), l ≠ [] := by
  by_cases hy : postProcess s = []
  · exact Or.inl hy
  · right
    have hprops : ∀ l ∈ (splitNl s).filter (fun l => !l.isEmpty), l ≠ [] ∧ '\n' ∉ l := by
      intro l hl
      have h1 := List.mem_filter.mp hl
      refine ⟨?_, mem_splitNl_not_nl h1.1⟩
      have := h1.2
      simpa using this
    have hhead : (postProcess s).head? ≠ some '\n' := by
      intro hc
      have := pyStrip_head_not_space
        (joinNl ((splitNl s).filter (fun l => !l.isEmpty))) hc
      simp [pyIsSpace] at this
    have hlast : (postProcess s).getLast? ≠ some '\n' := by
      intro hc
      have := pyStrip_getLast_not_space
        (joinNl ((splitNl s).filter (fun l => !l.isEmpty))) hc
      simp [pyIsSpace] at this
    have hdd : ¬ ('\n' :: ['\n'] <:+: postProcess s) := by
      intro h
      exact no_double_nl_joinNl hprops
        (h.trans (pyStrip_within (joinNl ((splitNl s).filter (fun l => !l.isEmpty)))))
    exact splitNl_all_ne_nil (postProcess s).length (postProcess s) le_rfl hy hhead hlast hdd

theorem postProcess_idem (s : L) : postProcess (postProcess s) = postProcess s := by
  rcases postProcess_pieces_ne_nil s with h | h
  · rw [h]
    decide
  · have hfilter : (splitNl (postProcess s)).filter (fun l => !l.isEmpty) =
        splitNl (postProcess s) := by
      apply List.filter_eq_self.mpr
      intro l hl
      simpa using h l hl
    conv_lhs => rw [postProcess]
    rw [hfilter, joinNl_splitNl]
    conv_rhs => rw [postProcess]
    rw [postProcess]
    exact pyStrip_idem _

theorem infix_postProcess {pat s : L} (hne : pat ≠ []) (hnl : '\n' ∉ pat)
    (h : pat <:+: postProcess s) : pat <:+: s := by
  have h1 : pat <:+: joinNl ((splitNl s).filter (fun l => !l.isEmpty)) :=
    h.trans (pyStrip_within _)
  have hprops : ∀ l ∈ (splitNl s).filter (fun l => !l.isEmpty), l ≠ [] ∧ '\n' ∉ l := by
    intro l hl
    have h2 := List.mem_filter.mp hl
    refine ⟨?_, mem_splitNl_not_nl h2.1⟩
    have := h2.2
    simpa using this
  obtain ⟨l, hl, hpl⟩ := infix_joinNl hne hnl _ hprops h1
  exact hpl.trans (mem_splitNl_occurs (List.mem_filter.mp hl).1)

theorem cleanLoop_of_not_guard {s : L}
    (h : ¬ (thinkTag <:+: s ∧ endThinkTag <:+: s)) :
    ∀ fuel, cleanLoop fuel s = some s := by
  intro fuel
  cases fuel with
  | zero => rw [cleanLoop, if_neg h]
  | succ n => rw [cleanLoop, if_neg h]

theorem cleanLoop_guard_false : ∀ {fuel : Nat} {s x : L},
    cleanLoop fuel s = some x → ¬ (thinkTag <:+: x ∧ endThinkTag <:+: x) := by
  intro fuel
  induction fuel with
  | zero =>
    intro s x h
    rw [cleanLoop] at h
    by_cases hg : thinkTag <:+: s ∧ endThinkTag <:+: s
    · rw [if_pos hg] at h
      exact absurd h (by simp)
    · rw [if_neg hg] at h
      rw [Option.some.injEq] at h
      subst h
      exact hg
  | succ n ih =>
    intro s x h
    rw [cleanLoop] at h
    by_cases hg : thinkTag <:+: s ∧ endThinkTag <:+: s
    · rw [if_pos hg] at h
      exact ih h
    · rw [if_neg hg] at h
      rw [Option.some.injEq] at h
      subst h
      exact hg

/-- Well-formedness of a text with respect to thinking spans: the text
either contains no marker at all, or its first opening marker is
followed by a body and then by the first closing marker of the whole
text, and the text with this leading span removed is again
well-formed.  This is the formalisation of an input consisting of zero
or more well-formed opening-to-closing spans. -/
inductive Spans : L → Prop
  | base (s : L) : ¬ thinkTag <:+: s → ¬ endThinkTag <:+: s → Spans s
  | span (s t b r : L) :
      firstSplit thinkTag s = some (t, b ++ endThinkTag ++ r) →
      firstSplit endThinkTag s = some (t ++ thinkTag ++ b, r) →
      Spans (t ++ r) →
      Spans s

theorem spans_cleanLoop : ∀ {s : L}, Spans s → ∀ fuel, s.length ≤ fuel →
    ∃ x, cleanLoop fuel s = some x := by
  intro s h
  induction h with
  | base s h1 h2 =>
    intro fuel _
    exact ⟨s, cleanLoop_of_not_guard (fun hg => h1 hg.1) fuel⟩
  | span s t b r h1 h2 _ ih =>
    intro fuel hfuel
    have hs := firstSplit_eq_append h1
    have hlen : s.length = t.length + thinkTag.length +
        (b.length + endThinkTag.length + r.length) := by
      rw [hs]
      simp only [List.length_append]
    cases fuel with
    | zero =>
      exfalso
      rw [Nat.le_zero] at hfuel
      rw [hfuel] at hlen
      have : thinkTag.length = 7 := by decide
      omega
    | succ f =>
      have hguard : thinkTag <:+: s ∧ endThinkTag <:+: s :=
        ⟨infix_of_firstSplit h1, infix_of_firstSplit h2⟩
      rw [cleanLoop, if_pos hguard]
      have hstep : cleanStep s = t ++ r := by
        rw [cleanStep, h1, h2]
      rw [hstep]
      apply ih f
      have h7 : thinkTag.length = 7 := by decide
      have h8 : endThinkTag.length = 8 := by decide
      simp only [List.length_append]
      omega

/-- C6: on any input consisting of zero or more well-formed
thinking spans, clean_response_content terminates (here: within fuel
equal to the input length) and applying it a second time, with any
fuel, returns its result unchanged, so the non-streaming cleanup is
idempotent on such inputs. -/
theorem C6_clean_response_idempotent {s : L} (h : Spans s) :
    ∃ out, clean_response_content s.length s = some out ∧
      ∀ fuel₂, clean_response_content fuel₂ out = some out := by
  by_cases hs : s.isEmpty
  · refine ⟨s, ?_, ?_⟩
    · rw [clean_response_content, if_pos hs]
    · intro fuel₂
      rw [clean_response_content, if_pos hs]
  · obtain ⟨x, hx⟩ := spans_cleanLoop h s.length le_rfl
    refine ⟨postProcess x, ?_, ?_⟩
    · rw [clean_response_content, if_neg hs, hx]
      rfl
    · intro fuel₂
      have hguardx := cleanLoop_guard_false hx
      by_cases hy : (postProcess x).isEmpty
      · rw [clean_response_content, if_pos hy]
      · have hguardy : ¬ (thinkTag <:+: postProcess x ∧ endThinkTag <:+: postProcess x) := by
          intro hg
          exact hguardx ⟨infix_postProcess (by decide) (by decide) hg.1,
            infix_postProcess (by decide) (by decide) hg.2⟩
        rw [clean_response_content, if_neg hy]
        rw [cleanLoop_of_not_guard hguardy fuel₂]
        show some (postProcess (postProcess x)) = some (postProcess x)
        rw [postProcess_idem]

theorem C6_witness :
    ∃ out, clean_response_content (("a<think>b</think>c".toList).length)
        ("a<think>b</think>c".toList) = some out ∧
      ∀ fuel₂, clean_response_content fuel₂ out = some out :=
  C6_clean_response_idempotent
    (Spans.span ("a<think>b</think>c".toList) ("a".toList) ("b".toList) ("c".toList)
      (by decide) (by decide)
      (Spans.base ("ac".toList) (by decide) (by decide)))
